import Mathlib

/-!
Verification development for the APKMirror artifact discovery and resolution
engine (scripts/downloader.py). The Python code is shallowly embedded:
pure string/regex logic becomes Lean functions over `String`/`List Char`,
the stateful per-app orchestrator becomes explicit state passing, and the
network/filesystem environment becomes oracle functions supplied as
arguments. Each definition is annotated with the source function it embeds.
-/

namespace Downloader

/-! ## String utilities

The Python code tests substring containment with the `in` operator and
searches with anchored regular expressions. We implement containment,
list-prefix and suffix tests over `List Char` so that everything is
executable and kernel-evaluable.
-/

/-- Does the text begin with the pattern? (first argument: pattern). -/
def startsWithL : List Char → List Char → Bool
  | [], _ => true
  | _ :: _, [] => false
  | a :: as, b :: bs => a = b && startsWithL as bs

/-- Does the pattern occur anywhere in the text? (first argument: pattern). -/
def hasSubL (pat : List Char) : List Char → Bool
  | [] => startsWithL pat []
  | c :: rest => startsWithL pat (c :: rest) || hasSubL pat rest

/-- Python `pat in s` on strings: substring containment. -/
def strHasSub (s pat : String) : Bool := hasSubL pat.data s.data

/-- Python `s.endswith(pat)` / an `$`-anchored regex tail. -/
def strEndsWith (s pat : String) : Bool := startsWithL pat.data.reverse s.data.reverse

/-- Python `s.lower()` (ASCII case folding, which covers the URL/keyword
strings this code compares). -/
def strToLower (s : String) : String := String.mk (s.data.map Char.toLower)

/-! ## ArtifactDownloader (`download_single_apk`, downloader.py lines 710-760)

The transport (requests session + filesystem write) is abstracted as a
function from the 0-based attempt index to `none` (a raised
`requests.RequestException`) or `some body` (the fetched bytes, written out
whole). The Python loop `for attempt in range(max_retries)` retries on
exception and returns `True` on the first successful attempt; after the
last failed attempt it returns `False`.
-/

/-- Outcome of one `download_single_apk` call: the returned success flag,
the number of fetch attempts performed, and the bytes written on success. -/
structure DownloadResult where
  success : Bool
  attempts : Nat
  bytesWritten : Nat
deriving DecidableEq, Repr

/-- The retry loop of `download_single_apk`: remaining attempts allowed,
and the number of attempts already performed. -/
def dlLoop (transport : Nat → Option (List Nat)) : Nat → Nat → DownloadResult
  | 0, attempt => ⟨false, attempt, 0⟩
  | fuel + 1, attempt =>
    match transport attempt with
    | some body => ⟨true, attempt + 1, body.length⟩
    | none => dlLoop transport fuel (attempt + 1)

/-- `download_single_apk(download_url, output_path, max_retries, retry_delay)`:
attempt up to `maxRetries` fetches, reporting success on the first one that
does not raise. -/
def download_single_apk (transport : Nat → Option (List Nat)) (maxRetries : Nat) :
    DownloadResult :=
  dlLoop transport maxRetries 0

/-- A transport that raises on the first attempt and succeeds on every
later one with a 3-byte body. -/
def failThenOkTransport (i : Nat) : Option (List Nat) :=
  if i = 0 then none else some [7, 7, 7]

/-! ## Exit codes (`main`, downloader.py lines 997-1099)

Per enabled app, `download_app_apks` returns a success flag; `main` collects
the flags into `results['successful']` / `results['failed']` and returns
exit code 2 when no app succeeded, else 0 (both for partial and for
complete success; 1 is returned earlier for critical errors).
-/

/-- The exit-code computation of `main` (lines 1084-1093) over the per-app
success flags of one run. -/
def mainExitCode (outcomes : List Bool) : Nat :=
  let nSuccessful := (outcomes.filter (fun b => b)).length
  let nFailed := (outcomes.filter (fun b => !b)).length
  if nSuccessful = 0 then 2
  else if 0 < nFailed then 0
  else 0

/-! ## Candidates and architecture classification

`_get_variants_from_version_page` (downloader.py lines 210-349) builds
candidate dictionaries `{'url', 'text', 'architecture', 'context'}`.
Method 2 (lines 272-335) classifies each download link from the combined
lowercase signal `f"{text} {href} {context}".lower()`.
-/

/-- A candidate download link as built by `_get_variants_from_version_page`. -/
structure Variant where
  url : String
  text : String
  architecture : String
  context : String
deriving DecidableEq, Repr

/-- The per-architecture detection condition of the Method-2 loop
(downloader.py lines 300-317): for a fixed requested architecture, does the
combined lowercase text carry that architecture's explicit signal? -/
def archSignal (arch : String) (fullText : String) : Bool :=
  if arch = "armeabi-v7a" then
    ["armeabi", "armv7", "arm-v7a"].any (fun v => strHasSub fullText v)
  else if arch = "arm64-v8a" then
    ["arm64", "aarch64"].any (fun v => strHasSub fullText v)
  else if arch = "x86_64" then strHasSub fullText "x86_64"
  else if arch = "x86" then strHasSub fullText "x86" && !strHasSub fullText "x86_64"
  else if arch = "universal" then
    ["universal", "noarch", "all-arch"].any (fun v => strHasSub fullText v)
  else false

/-- Method-2 architecture detection (downloader.py lines 300-321): scan the
requested architectures in order, take the first whose signal matches; when
none matches, default to `universal` exactly when `universal` was requested,
else produce no candidate. -/
def detectArchMethod2 (architectures : List String) (fullText : String) : Option String :=
  match architectures.find? (fun arch => archSignal arch fullText) with
  | some arch => some arch
  | none => if architectures.contains "universal" then some "universal" else none

/-! ### The standalone classifier `_extract_architecture_info`
(downloader.py lines 457-500): three ordered layers — exact architecture
string in the URL, synonym containment in the combined text, then
word-boundary regex patterns — and explicitly no fallback. -/

/-- The synonym table `arch_variations` (lines 470-475); architectures
outside the table (notably `x86`) get no synonyms. -/
def archVariations (arch : String) : List String :=
  if arch = "arm64-v8a" then ["arm64-v8a", "arm64v8a", "arm64", "aarch64"]
  else if arch = "armeabi-v7a" then ["armeabi-v7a", "armeabiv7a", "armeabi", "armv7a", "armv7"]
  else if arch = "x86_64" then ["x86_64", "x8664", "x64", "amd64", "x86-64"]
  else if arch = "universal" then ["universal", "noarch", "all-arch", "fat"]
  else []

/-- The regex table `arch_patterns` (lines 486-491); each pattern is a
word (`\b`-delimited) to search for. -/
def archPatterns (arch : String) : List String :=
  if arch = "arm64-v8a" then ["arm64", "aarch64"]
  else if arch = "armeabi-v7a" then ["armeabi", "armv7", "arm32"]
  else if arch = "x86_64" then ["x86_64", "x64", "amd64"]
  else if arch = "universal" then ["universal", "noarch"]
  else []

/-- A regex word character (`\w`): letter, digit or underscore. -/
def wordChar (c : Char) : Bool := c.isAlphanum || c = '_'

/-- Consume a literal pattern from the front of the text, returning the
remainder on success. -/
def dropLit : List Char → List Char → Option (List Char)
  | [], s => some s
  | _ :: _, [] => none
  | a :: as, b :: bs => if a = b then dropLit as bs else none

/-- Is the position right after a match a `\b` boundary (end of text or a
non-word character)? -/
def boundaryAfter : List Char → Bool
  | [] => true
  | c :: _ => !wordChar c

/-- Does the word-pattern match at the head of the text with a `\b`
boundary after it? -/
def wbHere (pat s : List Char) : Bool :=
  match dropLit pat s with
  | some rest => boundaryAfter rest
  | none => false

/-- Is the previous character (none at the start of the text) a `\b`
boundary for a word-pattern start? -/
def boundaryBefore : Option Char → Bool
  | none => true
  | some c => !wordChar c

/-- `re.search` for a pattern of the shape `\bword\b` where `word` consists
of word characters: try every position, tracking the preceding character. -/
def wbSearch (pat : List Char) : Option Char → List Char → Bool
  | prev, [] => boundaryBefore prev && wbHere pat []
  | prev, c :: rest =>
    (boundaryBefore prev && wbHere pat (c :: rest)) || wbSearch pat (some c) rest

/-- Word-boundary search on strings, as used for the `arch_patterns` table. -/
def wordBoundarySearch (pat s : String) : Bool := wbSearch pat.data none s.data

/-- `_extract_architecture_info(text, href, context_text, architectures)`
(downloader.py lines 457-500): ordered layers, first match wins, `none`
(Python `None`) when no layer matches — never a guessed default. -/
def extractArchitectureInfo (text href contextText : String)
    (architectures : List String) : Option String :=
  let combined := strToLower (text ++ " " ++ href ++ " " ++ contextText)
  let urlLower := strToLower href
  match architectures.find? (fun arch => strHasSub urlLower (strToLower arch)) with
  | some arch => some arch
  | none =>
    match architectures.find? (fun arch =>
        (archVariations arch).any (fun v => strHasSub combined v)) with
    | some arch => some arch
    | none =>
      match architectures.find? (fun arch =>
          (archPatterns arch).any (fun p => wordBoundarySearch p combined)) with
      | some arch => some arch
      | none => none

/-- The combined per-architecture signal of `_extract_architecture_info`:
some layer of the classifier matches this architecture. -/
def eaiSignal (arch text href contextText : String) : Bool :=
  let combined := strToLower (text ++ " " ++ href ++ " " ++ contextText)
  strHasSub (strToLower href) (strToLower arch)
    || (archVariations arch).any (fun v => strHasSub combined v)
    || (archPatterns arch).any (fun p => wordBoundarySearch p combined)

/-! ## PackagingPreferenceFilter (`_filter_prefer_apk_downloads`,
downloader.py lines 351-434)

Group the candidates by architecture (Python dict of lists, insertion
order), pass single-candidate groups through, and in multi-candidate groups
classify each candidate as APK / Bundle / other, retaining the first
candidate of the best nonempty class (APK over Bundle over other).
-/

/-- Packaging classification of one candidate inside a multi-candidate
group (lines 380-417). -/
inductive PackClass
  | apk
  | bundle
  | other
deriving DecidableEq, Repr

/-- The regex `-[2-9]-android-apk-download` searched in the lowercase URL:
a second-or-later variant index suffix. -/
def hasNumberedVariantSuffix (u : String) : Bool :=
  ["-2-android-apk-download", "-3-android-apk-download", "-4-android-apk-download",
   "-5-android-apk-download", "-6-android-apk-download", "-7-android-apk-download",
   "-8-android-apk-download", "-9-android-apk-download"].any (fun p => strHasSub u p)

/-- The regex `-android-apk-download/?$` searched in the lowercase URL: a
bare (non-numbered) variant suffix at the end. -/
def endsWithBareSuffix (u : String) : Bool :=
  strEndsWith u "-android-apk-download" || strEndsWith u "-android-apk-download/"

/-- Classification of one candidate (lines 380-417): numbered variant URL
suffix → APK; bare trailing suffix without a numbered one → Bundle; then
explicit bundle text tokens; then explicit APK text tokens; else other. -/
def variantClass (v : Variant) : PackClass :=
  let combined := strToLower v.text ++ " " ++ strToLower v.url ++ " " ++ strToLower v.context
  let urlLower := strToLower v.url
  if hasNumberedVariantSuffix urlLower then .apk
  else if endsWithBareSuffix urlLower && !hasNumberedVariantSuffix urlLower then .bundle
  else if ["bundle", "aab", "app bundle"].any (fun p => strHasSub combined p) then .bundle
  else if ["apk", "android package"].any (fun p => strHasSub combined p) then .apk
  else .other

/-- Insert one candidate into the ordered architecture groups, mirroring
`arch_groups.setdefault`-style dict insertion (lines 360-365). -/
def addToGroups (gs : List (String × List Variant)) (v : Variant) :
    List (String × List Variant) :=
  if gs.any (fun g => g.1 = v.architecture) then
    gs.map (fun g => if g.1 = v.architecture then (g.1, g.2 ++ [v]) else g)
  else gs ++ [(v.architecture, [v])]

/-- The architecture groups of lines 360-365, in first-occurrence order. -/
def archGroups (vs : List Variant) : List (String × List Variant) :=
  vs.foldl addToGroups []

/-- Per-group retention (lines 369-429): a single candidate passes through;
otherwise take the first APK candidate, else the first Bundle candidate,
else the first other candidate. -/
def selectForGroup (g : List Variant) : List Variant :=
  if g.length = 1 then g
  else
    let apks := g.filter (fun v => decide (variantClass v = .apk))
    let bundles := g.filter (fun v => decide (variantClass v = .bundle))
    let others := g.filter (fun v => decide (variantClass v = .other))
    if !apks.isEmpty then apks.take 1
    else if !bundles.isEmpty then bundles.take 1
    else others.take 1

/-- Concatenate the retained candidates of the groups in order
(the `filtered_variants.extend` accumulation). -/
def selectAll : List (String × List Variant) → List Variant
  | [] => []
  | g :: gs => selectForGroup g.2 ++ selectAll gs

/-- `_filter_prefer_apk_downloads(variants)` (lines 351-434). -/
def filterPreferApkDownloads (vs : List Variant) : List Variant :=
  if vs.isEmpty then vs else selectAll (archGroups vs)

/-! ## VersionExtractor (`_extract_version_from_url`, downloader.py
lines 162-206)

The Python function tries an ordered list of `re.search` patterns. Each
pattern is embedded as a deterministic parser over `List Char`; for these
patterns Python's greedy backtracking search is equivalent to the
deterministic maximal-munch parse (every `\d+` is followed by a non-digit
literal, so giving back characters can never help, and at a block/`-release`
fork the lookahead characters are disjoint: a digit versus `r`). `re.search`
semantics (leftmost start position that matches) is `scanFirst` over all
suffixes. Each parser returns the dot-joined segments of the version string
the Python handler would return.
-/

/-- `\d+`: the maximal nonempty digit run at the head of the text, with the
remainder. -/
def pDigits (s : List Char) : Option (List Char × List Char) :=
  let d := s.takeWhile Char.isDigit
  if d.isEmpty then none else some (d, s.dropWhile Char.isDigit)

/-- A single literal character. -/
def pChar (c : Char) : List Char → Option (List Char)
  | x :: r => if x = c then some r else none
  | [] => none

/-- `(?:<sep>\d+)*`, maximal, with explicit fuel (structural recursion so
the kernel can evaluate it): one repetition per fuel unit. -/
def sepDigitBlocksF (sep : Char) : Nat → List Char → List (List Char) × List Char
  | _, [] => ([], [])
  | 0, s => ([], s)
  | fuel + 1, c :: rest =>
    if c = sep then
      match rest with
      | [] => ([], [c])
      | d :: rest2 =>
        if d.isDigit then
          let res := sepDigitBlocksF sep fuel (rest2.dropWhile Char.isDigit)
          ((d :: rest2.takeWhile Char.isDigit) :: res.1, res.2)
        else ([], c :: rest)
    else ([], c :: rest)

/-- `(?:<sep>\d+)*`, maximal: the list of digit runs consumed (one per
repetition) and the remainder. The fuel `s.length` is always sufficient
because every repetition consumes at least two characters. -/
def sepDigitBlocks (sep : Char) (s : List Char) : List (List Char) × List Char :=
  sepDigitBlocksF sep s.length s

/-- The tail `(\d+)-(\d+)-(\d+)-\d+-release` shared by both app-family
photo patterns (lines 173 and 178): keep the first three groups. -/
def photosTail (s : List Char) : Option (List (List Char)) := do
  let a ← pDigits s
  let s1 ← pChar '-' a.2
  let b ← pDigits s1
  let s2 ← pChar '-' b.2
  let c ← pDigits s2
  let s3 ← pChar '-' c.2
  let d ← pDigits s3
  let _ ← dropLit "-release".data d.2
  pure [a.1, b.1, c.1]

/-- Pattern `google-photos-(\d+)-(\d+)-(\d+)-\d+-release` anchored at one
position. -/
def p0aAt (s : List Char) : Option (List (List Char)) := do
  let s ← dropLit "google-photos-".data s
  photosTail s

/-- Pattern `photos-(\d+)-(\d+)-(\d+)-\d+-release` anchored at one
position. -/
def p0bAt (s : List Char) : Option (List (List Char)) := do
  let s ← dropLit "photos-".data s
  photosTail s

/-- Pattern 2, `-(\d+(?:-\d+)+)-release`, anchored at one position; the
captured group's dashes become dots, so the segments are returned. -/
def p2At (s : List Char) : Option (List (List Char)) := do
  let s1 ← pChar '-' s
  let a ← pDigits s1
  let bl := sepDigitBlocks '-' a.2
  if bl.1.isEmpty then none
  else do
    let _ ← dropLit "-release".data bl.2
    pure (a.1 :: bl.1)

/-- The version body of pattern 3, `\d+(?:\.\d+)+`; the optional
`(?:-release)?(?:\.0)*` tail never fails and is deleted afterwards by
`re.sub(r'-release.*', '', ...)`, so it is not parsed. -/
def p3Version (s : List Char) : Option (List (List Char)) := do
  let a ← pDigits s
  let bl := sepDigitBlocks '.' a.2
  if bl.1.isEmpty then none else pure (a.1 :: bl.1)

/-- Pattern 3 at a fixed split: the `[^/]+` group takes `j` characters of
the run, the literal `-` must stand at index `j`, the version body follows. -/
def p3Split (run : List Char) (j : Nat) : Option (List (List Char)) :=
  if run.get? j = some '-' then p3Version (run.drop (j + 1)) else none

/-- Greedy backtracking of `[^/]+`: try the split indices from high to low
(Python gives characters back one at a time from the maximal run), stopping
at 1 so the group stays nonempty. -/
def p3Desc (run : List Char) : Nat → Option (List (List Char))
  | 0 => none
  | j + 1 =>
    match p3Split run (j + 1) with
    | some r => some r
    | none => p3Desc run j

/-- Pattern 3, `/([^/]+)-(\d+(?:\.\d+)+(?:\.\d+)*(?:-release)?(?:\.0)*)`,
anchored at one position: a slash, then the nonempty `[^/]` run split at the
latest workable dash. -/
def p3At : List Char → Option (List (List Char))
  | '/' :: rest =>
    let run := rest.takeWhile (fun c => c ≠ '/')
    p3Desc run (run.length - 1)
  | _ => none

/-- Pattern 4, `(\d+\.\d+\.\d+(?:\.\d+)*)`, anchored at one position. -/
def p4At (s : List Char) : Option (List (List Char)) := do
  let a ← pDigits s
  let s1 ← pChar '.' a.2
  let b ← pDigits s1
  let s2 ← pChar '.' b.2
  let c ← pDigits s2
  let bl := sepDigitBlocks '.' c.2
  pure (a.1 :: b.1 :: c.1 :: bl.1)

/-- Pattern 5, `-(\d+)-(\d+)-(\d+)(?:-(\d+))?-`, anchored at one position:
when the optional fourth group cannot complete (no digits after its dash, or
no dash after them), the dash that started it serves as the final literal. -/
def p5At (s : List Char) : Option (List (List Char)) := do
  let s1 ← pChar '-' s
  let a ← pDigits s1
  let s2 ← pChar '-' a.2
  let b ← pDigits s2
  let s3 ← pChar '-' b.2
  let c ← pDigits s3
  match c.2 with
  | '-' :: s4 =>
    match pDigits s4 with
    | some d =>
      match d.2 with
      | '-' :: _ => pure [a.1, b.1, c.1, d.1]
      | _ => pure [a.1, b.1, c.1]
    | none => pure [a.1, b.1, c.1]
  | _ => none

/-- `re.search`: try the anchored pattern at every start position, leftmost
first. -/
def scanFirst (f : List Char → Option α) : List Char → Option α
  | [] => f []
  | c :: rest =>
    match f (c :: rest) with
    | some r => some r
    | none => scanFirst f rest

/-- Join version segments with dots (the `'.'.join` / `replace('-', '.')`
step of the handlers). -/
def joinDots : List (List Char) → List Char
  | [] => []
  | [s] => s
  | s :: rest => s ++ '.' :: joinDots rest

/-- Split a character list at dots: the inverse view used to speak about
the dot-separated segments of a returned version string. -/
def splitDots : List Char → List (List Char)
  | [] => [[]]
  | c :: rest =>
    if c = '.' then [] :: splitDots rest
    else
      match splitDots rest with
      | [] => [[c]]
      | seg :: segs => (c :: seg) :: segs

/-- `_extract_version_from_url` (downloader.py lines 162-206) as segment
lists: the photos branch guarded by `'google-photos' in url or '/photos/'
in url`, then patterns 2, 3, 4 and 5 in order, then the `"0.0.0"`
fallback. -/
def extractVersionSegments (url : List Char) : List (List Char) :=
  let photos : Option (List (List Char)) :=
    if hasSubL "google-photos".data url || hasSubL "/photos/".data url then
      (scanFirst p0aAt url).orElse (fun _ => scanFirst p0bAt url)
    else none
  ((((photos.orElse
      (fun _ => scanFirst p2At url)).orElse
      (fun _ => scanFirst p3At url)).orElse
      (fun _ => scanFirst p4At url)).orElse
      (fun _ => scanFirst p5At url)).getD [['0'], ['0'], ['0']]

/-- `_extract_version_from_url(url)`: the returned version string. -/
def extract_version_from_url (url : String) : String :=
  String.mk (joinDots (extractVersionSegments url.data))

/-! ## DiscoveryOrchestrator (`download_app_apks`, downloader.py
lines 764-995)

The per-app loop over version pages (lines 886-952). The network and
filesystem are abstracted as an environment of oracles: whether the output
file for a (version, architecture) pair already exists, what
`get_direct_download_link` returns for a variant page URL, and whether
`download_single_apk` succeeds on a direct link. Each version page is
paired with the variant list `_get_variants_from_version_page` produced
for it.
-/

/-- The download-time environment of one `download_app_apks` run. -/
structure OrchEnv where
  fileExists : String → String → Bool
  directLink : String → Option String
  downloadOk : String → Bool

/-- The mutable state of the loop: the keys of `found_variants` in
insertion order, and the length of `downloaded_files`. -/
structure OrchState where
  foundVariants : List String
  downloadedFiles : Nat
deriving DecidableEq, Repr

/-- Processing of one variant in the inner loop (lines 905-941): skip
architectures already found; otherwise retain the architecture when the
output file already exists, or when a direct link resolves and the download
succeeds. -/
def processVariant (env : OrchEnv) (version : String) (st : OrchState)
    (v : Variant) : OrchState :=
  if st.foundVariants.contains v.architecture then st
  else if env.fileExists version v.architecture then
    ⟨st.foundVariants ++ [v.architecture], st.downloadedFiles + 1⟩
  else
    match env.directLink v.url with
    | none => st
    | some link =>
      if env.downloadOk link then
        ⟨st.foundVariants ++ [v.architecture], st.downloadedFiles + 1⟩
      else st

/-- One version page's variant loop (`for variant in variants`). -/
def processPage (env : OrchEnv) (version : String) (st : OrchState)
    (variants : List Variant) : OrchState :=
  variants.foldl (processVariant env version) st

/-- The early-stop test of line 950: a recommended version is known
(Python truthiness: not `None`, not empty), the current version string
equals it by string equality, and at least one architecture was found. -/
def earlyStopCond (recommended : Option String) (version : String)
    (found : List String) : Bool :=
  match recommended with
  | none => false
  | some r => !r.isEmpty && version = r && !found.isEmpty

/-- The outer loop over version pages (lines 886-952): process a page, then
break when `download_multiple_architectures` is off or all requested
architectures are found (line 946), or when the recommended version was
just successfully handled (line 950). -/
def downloadLoop (env : OrchEnv) (architectures : List String)
    (downloadMultiple : Bool) (recommended : Option String) :
    List (String × List Variant) → OrchState → OrchState
  | [], st => st
  | (version, variants) :: rest, st =>
    let st' := processPage env version st variants
    if !downloadMultiple || decide (architectures.length ≤ st'.foundVariants.length) then
      st'
    else if earlyStopCond recommended version st'.foundVariants then st'
    else downloadLoop env architectures downloadMultiple recommended rest st'

/-- The full per-app run (from the empty `found_variants` of line 881),
returning the final state. -/
def download_app_apks (env : OrchEnv) (architectures : List String)
    (downloadMultiple : Bool) (recommended : Option String)
    (pages : List (String × List Variant)) : OrchState :=
  downloadLoop env architectures downloadMultiple recommended pages ⟨[], 0⟩

/-- The end-of-run report (lines 954-957): `requested_architectures`,
`found_architectures` and `missing_architectures` as sets. -/
def missingArchitectures (architectures : List String) (found : List String) :
    Finset String :=
  architectures.toFinset \ found.toFinset

/-! ## Version-page deduplication (`get_all_version_pages`, downloader.py
lines 148-156)

After version extraction, pages whose version string was already seen are
dropped (first occurrence wins, plain string equality).
-/

/-- One entry of the `version_pages` list. -/
structure VersionPage where
  url : String
  version : String
deriving DecidableEq, Repr

/-- The `seen_versions` loop of lines 149-154. -/
def dedupVersionsAux (seen : List String) : List VersionPage → List VersionPage
  | [] => []
  | vp :: rest =>
    if seen.contains vp.version then dedupVersionsAux seen rest
    else vp :: dedupVersionsAux (seen ++ [vp.version]) rest

/-- Duplicate-version filtering of `get_all_version_pages`. -/
def dedupVersions (vps : List VersionPage) : List VersionPage :=
  dedupVersionsAux [] vps

/-! ## Concrete inputs used by counterexamples and witnesses -/

/-- Environment in which every output file already exists, so any
discovered variant is retained immediately. -/
def envAllExist : OrchEnv := ⟨fun _ _ => true, fun _ => none, fun _ => false⟩

/-- Two version pages: the first exposes no variants, the second one
`arm64-v8a` variant. -/
def pagesLateVariant : List (String × List Variant) :=
  [("1.0", []), ("2.0", [⟨"https://x/a-apk-download", "Download", "arm64-v8a", ""⟩])]

/-- A candidate whose URL ends in the bare suffix `-android-apk-download`. -/
def vBareSuffix : Variant :=
  ⟨"https://x/app-1-0-android-apk-download", "", "arm64-v8a", ""⟩

/-- A candidate whose URL ends in the numbered suffix
`-2-android-apk-download`. -/
def vNumSuffix : Variant :=
  ⟨"https://x/app-1-0-2-android-apk-download", "", "arm64-v8a", ""⟩

end Downloader

namespace Downloader

/-! # Theorems -/

/-! ## C1: the run's exit status -/

/-- C1, counterexample: `main` (downloader.py lines 1084-1093) returns exit
code 0 both when every enabled app succeeded and when only some did, and 2
when none did — the three outcomes "all succeeded", "partial success" and
"total failure" do NOT take three pairwise-distinct exit-status values:
all-succeeded and partial success share the value 0. -/
theorem C1_counterexample :
    mainExitCode [true] = 0 ∧ mainExitCode [true, false] = 0 ∧
      mainExitCode [false] = 2 ∧ mainExitCode [true] = mainExitCode [true, false] := by
  decide

/-- C1, amended: the exit status takes only two distinct values over the
three outcomes — 2 exactly when no enabled app succeeded (total failure),
and 0 whenever at least one succeeded, whether or not all did (exit code 1
is reserved for critical errors before the per-app loop). -/
theorem C1_exit_status (outcomes : List Bool) :
    (mainExitCode outcomes = 2 ↔ ∀ b ∈ outcomes, b = false)
    ∧ ((∃ b ∈ outcomes, b = true) → mainExitCode outcomes = 0) := by
  have key : ((outcomes.filter (fun b => b)).length = 0) ↔ ∀ b ∈ outcomes, b = false := by
    rw [List.length_eq_zero, List.filter_eq_nil_iff]
    simp
  by_cases h : (outcomes.filter (fun b => b)).length = 0
  · refine ⟨⟨fun _ => key.mp h, fun _ => by simp [mainExitCode, h]⟩, ?_⟩
    rintro ⟨b, hb, rfl⟩
    exact absurd (key.mp h _ hb) (by simp)
  · have h0 : mainExitCode outcomes = 0 := by
      simp only [mainExitCode, if_neg h]
      split <;> rfl
    refine ⟨⟨fun h2 => absurd (h0 ▸ h2) (by decide), fun hall => absurd (key.mpr hall) h⟩, ?_⟩
    exact fun _ => h0

/-- C1, witness: a partially successful run (one app succeeded, one failed)
exits with code 0 by the amended statement. -/
theorem C1_witness : mainExitCode [true, false] = 0 :=
  (C1_exit_status [true, false]).2 ⟨true, by simp, rfl⟩

/-! ## C3: the `download_multiple_architectures = false` early stop -/

/-- C3, counterexample: with `download_multiple_architectures` off, the
orchestrator loop (line 946) breaks after the FIRST version page whether or
not anything was retained. On a run whose first page has no variants and
whose second page has a retainable `arm64-v8a` variant, the flag-off run
ends with no architecture found, while the same run with the flag on
retains `arm64-v8a` — so the loop does stop before any architecture has
been retained, contradicting the claim. -/
theorem C3_counterexample :
    (download_app_apks envAllExist ["arm64-v8a"] false none pagesLateVariant).foundVariants
        = []
    ∧ (download_app_apks envAllExist ["arm64-v8a"] true none pagesLateVariant).foundVariants
        = ["arm64-v8a"] := by
  decide

/-- C3, amended: when `download_multiple_architectures` is false, the
orchestrator processes exactly the first version page and then stops,
regardless of whether any architecture variant was retained on it (so it
never proceeds past the page of the first retained architecture, but it can
also stop with none retained). -/
theorem C3_flag_off_stops_after_first_page (env : OrchEnv)
    (architectures : List String) (recommended : Option String)
    (page : String × List Variant) (rest : List (String × List Variant))
    (st : OrchState) :
    downloadLoop env architectures false recommended (page :: rest) st =
      processPage env page.1 st page.2 := by
  obtain ⟨version, variants⟩ := page
  simp [downloadLoop]

/-! ## C7: ArtifactDownloader retry counts -/

/-- The retry loop under a transport failing on every attempt in range:
all fuel is consumed and the attempt counter advances by the fuel. -/
theorem dlLoop_all_fail (tr : Nat → Option (List Nat)) :
    ∀ (fuel start : Nat), (∀ i, start ≤ i → i < start + fuel → tr i = none) →
      dlLoop tr fuel start = ⟨false, start + fuel, 0⟩ := by
  intro fuel
  induction fuel with
  | zero => intro start _; simp [dlLoop]
  | succ n ih =>
    intro start h
    have h0 : tr start = none := h start (Nat.le_refl _) (by omega)
    rw [dlLoop, h0]
    have := ih (start + 1) (fun i h1 h2 => h i (by omega) (by omega))
    rw [this]
    have : start + 1 + n = start + (n + 1) := by omega
    rw [this]

/-- C7, counterexample: with `max_retries = 1` (an N ≥ 1 allowed by the
claim) and a transport that fails on the first attempt and would succeed on
the second, `download_single_apk` performs only 1 attempt and reports
failure — not 2 attempts with success as the claim states for every N ≥ 1. -/
theorem C7_counterexample :
    ¬ ((download_single_apk failThenOkTransport 1).attempts = 2
        ∧ (download_single_apk failThenOkTransport 1).success = true) := by
  decide

/-- C7, amended: with `max_retries = N ≥ 1` and a transport failing on
every attempt, `download_single_apk` performs exactly N attempts and
reports failure; and for every N ≥ 2 (two attempts must be permitted), with
a transport failing on the first attempt and succeeding on the second it
performs exactly 2 attempts and reports success with the source's byte
count. -/
theorem C7_retry_behaviour :
    (∀ (n : Nat) (tr : Nat → Option (List Nat)), 1 ≤ n →
        (∀ i, i < n → tr i = none) →
        download_single_apk tr n = ⟨false, n, 0⟩)
    ∧ (∀ (n : Nat) (tr : Nat → Option (List Nat)) (body : List Nat), 2 ≤ n →
        tr 0 = none → tr 1 = some body →
        download_single_apk tr n = ⟨true, 2, body.length⟩) := by
  constructor
  · intro n tr _ h
    have := dlLoop_all_fail tr n 0 (fun i _ h2 => h i (by omega))
    simpa [download_single_apk] using this
  · intro n tr body h2 h0 h1
    obtain ⟨k, rfl⟩ : ∃ k, n = k + 2 := ⟨n - 2, by omega⟩
    show dlLoop tr (k + 2) 0 = _
    rw [dlLoop, h0, dlLoop, h1]

/-- C7, witness: at N = 3 an always-failing transport yields 3 failed
attempts; the fail-then-succeed transport yields success after 2 attempts
with the 3-byte body length. -/
theorem C7_witness :
    download_single_apk (fun _ => none) 3 = ⟨false, 3, 0⟩
    ∧ download_single_apk failThenOkTransport 3 = ⟨true, 2, 3⟩ :=
  ⟨C7_retry_behaviour.1 3 (fun _ => none) (by decide) (fun i _ => rfl),
   C7_retry_behaviour.2 3 failThenOkTransport [7, 7, 7] (by decide) rfl rfl⟩

/-! ## C9: trailing `.0` and the engine's version-equality comparisons -/

/-- C9, counterexample: both comparison sites use literal string equality,
so `"7.50.0"` and `"7.50"` do NOT compare equal there: the duplicate-version
filter keeps both where it deduplicates genuinely equal strings, and the
recommended-version early stop does not trigger for `"7.50.0"` against
recommended `"7.50"` though it does for `"7.50"` itself. -/
theorem C9_counterexample :
    dedupVersions [⟨"u1", "7.50"⟩, ⟨"u2", "7.50.0"⟩]
        = [⟨"u1", "7.50"⟩, ⟨"u2", "7.50.0"⟩]
    ∧ dedupVersions [⟨"u1", "7.50"⟩, ⟨"u2", "7.50"⟩] = [⟨"u1", "7.50"⟩]
    ∧ earlyStopCond (some "7.50") "7.50.0" ["arm64-v8a"] = false
    ∧ earlyStopCond (some "7.50") "7.50" ["arm64-v8a"] = true := by
  decide

/-- C9, amended: appending a trailing `.0` segment DOES change the outcome
of both equality comparisons, because each is plain string equality: for
any version string, the padded form fails the recommended-version early
stop that the unpadded form passes, and the duplicate-version filter treats
the two forms as distinct versions. -/
theorem C9_trailing_zero_changes_equality (v : String) (found : List String)
    (hf : found ≠ []) (hv : v ≠ "") :
    earlyStopCond (some v) (v ++ ".0") found = false
    ∧ earlyStopCond (some v) v found = true
    ∧ dedupVersions [⟨"a", v⟩, ⟨"b", v ++ ".0"⟩]
        = [⟨"a", v⟩, ⟨"b", v ++ ".0"⟩] := by
  have hne : v ++ ".0" ≠ v := by
    intro h
    have h2 := congrArg String.length h
    rw [String.length_append] at h2
    have h3 : (".0" : String).length = 2 := rfl
    omega
  refine ⟨?_, ?_, ?_⟩
  · simp [earlyStopCond, hne]
  · have h4 : v.isEmpty = false := by
      rw [Bool.eq_false_iff]
      intro hemp
      exact hv ((String.isEmpty_iff v).mp hemp)
    simp [earlyStopCond, h4, hf]
  · simp [dedupVersions, dedupVersionsAux, hne]

/-- C9, witness: the amended statement at `v = "7.50"` with one found
architecture. -/
theorem C9_witness :
    earlyStopCond (some "7.50") ("7.50" ++ ".0") ["x"] = false
    ∧ earlyStopCond (some "7.50") "7.50" ["x"] = true
    ∧ dedupVersions [⟨"a", "7.50"⟩, ⟨"b", "7.50" ++ ".0"⟩]
        = [⟨"a", "7.50"⟩, ⟨"b", "7.50" ++ ".0"⟩] :=
  C9_trailing_zero_changes_equality "7.50" ["x"] (by decide) (by decide)

/-! ## C10: an `x86_64` signal is never tagged `x86` -/

/-- C10: in the exhaustive (Method-2) discovery pass, a download link whose
combined text/URL/context signal contains `x86_64` is never tagged with
architecture `x86`, for every requested architecture set: the `x86` branch
(line 312) explicitly excludes signals containing `x86_64`, and the only
default is `universal`. -/
theorem C10_x86_64_never_tagged_x86 (architectures : List String)
    (fullText : String) (h : strHasSub fullText "x86_64" = true) :
    detectArchMethod2 architectures fullText ≠ some "x86" := by
  unfold detectArchMethod2
  cases hf : architectures.find? (fun arch => archSignal arch fullText) with
  | none =>
    by_cases hu : architectures.contains "universal" <;> simp [hu]
  | some a =>
    have hsig := List.find?_some hf
    intro hcontra
    simp only [Option.some.injEq] at hcontra
    subst hcontra
    simp [archSignal, h] at hsig

/-- C10, witness: with requested set `[x86]` and a signal containing
`x86_64`, no `x86` tag is produced. -/
theorem C10_witness :
    detectArchMethod2 ["x86"] "app-x86_64-download" ≠ some "x86" :=
  C10_x86_64_never_tagged_x86 ["x86"] "app-x86_64-download" (by decide)

/-! ## C4: the `universal` default is the only default -/

/-- C4: in the exhaustive discovery pass, a link whose combined signal
matches no requested architecture is tagged `universal` exactly when
`universal` is requested (the only permitted default); any non-`universal`
tag the pass produces comes from a requested architecture whose explicit
signal matched; the standalone classifier `_extract_architecture_info`
returns no tag at all when none of its layers matches; and on the concrete
scenario — requested `{arm64-v8a, universal}`, one unlabeled binary
download link — the candidate is tagged `universal`, not `arm64-v8a`. -/
theorem C4_universal_only_default :
    (∀ (architectures : List String) (t : String),
        (∀ a ∈ architectures, archSignal a t = false) →
        (detectArchMethod2 architectures t = some "universal"
          ↔ "universal" ∈ architectures))
    ∧ (∀ (architectures : List String) (t a : String),
        detectArchMethod2 architectures t = some a → a ≠ "universal" →
        a ∈ architectures ∧ archSignal a t = true)
    ∧ (∀ (architectures : List String) (text href ctx : String),
        (∀ a ∈ architectures, eaiSignal a text href ctx = false) →
        extractArchitectureInfo text href ctx architectures = none)
    ∧ detectArchMethod2 ["arm64-v8a", "universal"]
        "download apk https://x/app-android-apk-download/ row" = some "universal" := by
  refine ⟨?_, ?_, ?_, by decide⟩
  · intro architectures t hnone
    have hf : architectures.find? (fun arch => archSignal arch t) = none := by
      rw [List.find?_eq_none]
      intro a ha
      simp [hnone a ha]
    unfold detectArchMethod2
    rw [hf]
    by_cases hu : "universal" ∈ architectures
    · rw [if_pos (List.elem_eq_true_of_mem hu)]
      simp [hu]
    · rw [if_neg (fun hc => hu (List.mem_of_elem_eq_true hc))]
      simp [hu]
  · intro architectures t a hdet hne
    cases hf : architectures.find? (fun arch => archSignal arch t) with
    | some b =>
      have hval : detectArchMethod2 architectures t = some b := by
        unfold detectArchMethod2
        simp only [hf]
      rw [hval] at hdet
      simp only [Option.some.injEq] at hdet
      subst hdet
      have hp := List.find?_some hf
      exact ⟨List.mem_of_find?_eq_some hf, by simpa using hp⟩
    | none =>
      exfalso
      by_cases hu : architectures.contains "universal" = true
      · have hval : detectArchMethod2 architectures t = some "universal" := by
          unfold detectArchMethod2
          simp only [hf, if_pos hu]
        rw [hval] at hdet
        simp only [Option.some.injEq] at hdet
        exact hne hdet.symm
      · have hval : detectArchMethod2 architectures t = none := by
          unfold detectArchMethod2
          simp only [hf, if_neg hu]
        rw [hval] at hdet
        simp at hdet
  · intro architectures text href ctx hnone
    have hcomp : ∀ a ∈ architectures,
        strHasSub (strToLower href) (strToLower a) = false
        ∧ ((archVariations a).any
            (fun v => strHasSub (strToLower (text ++ " " ++ href ++ " " ++ ctx)) v)) = false
        ∧ ((archPatterns a).any
            (fun p => wordBoundarySearch p (strToLower (text ++ " " ++ href ++ " " ++ ctx))))
              = false := by
      intro a ha
      have h := hnone a ha
      unfold eaiSignal at h
      simp only [Bool.or_eq_false_iff] at h
      exact ⟨h.1.1, h.1.2, h.2⟩
    have h1 : architectures.find?
        (fun arch => strHasSub (strToLower href) (strToLower arch)) = none :=
      List.find?_eq_none.mpr (fun a ha => by simp [(hcomp a ha).1])
    have h2 : architectures.find? (fun arch => (archVariations arch).any
        (fun v => strHasSub (strToLower (text ++ " " ++ href ++ " " ++ ctx)) v)) = none :=
      List.find?_eq_none.mpr (fun a ha => by simp [(hcomp a ha).2.1])
    have h3 : architectures.find? (fun arch => (archPatterns arch).any
        (fun p => wordBoundarySearch p (strToLower (text ++ " " ++ href ++ " " ++ ctx))))
          = none :=
      List.find?_eq_none.mpr (fun a ha => by simp [(hcomp a ha).2.2])
    simp only [extractArchitectureInfo, h1, h2, h3]

/-- C4, witness: with requested `{arm64-v8a, universal}` and a signal
matching no architecture, the tag is `universal` because `universal` is
requested. -/
theorem C4_witness :
    detectArchMethod2 ["arm64-v8a", "universal"] "plain link" = some "universal"
      ↔ "universal" ∈ ["arm64-v8a", "universal"] :=
  C4_universal_only_default.1 ["arm64-v8a", "universal"] "plain link" (by decide)

/-! ## C5/C6: PackagingPreferenceFilter -/

/-- When `find?` locates a first satisfying element, taking one element of
the filtered list yields exactly that element. -/
theorem take_one_filter_of_find? {α : Type} (p : α → Bool) :
    ∀ (l : List α) (v : α), l.find? p = some v → (l.filter p).take 1 = [v] := by
  intro l
  induction l with
  | nil => intro v h; simp at h
  | cons a l ih =>
    intro v h
    by_cases hp : p a
    · rw [List.find?_cons_of_pos _ hp] at h
      simp only [Option.some.injEq] at h
      subst h
      rw [List.filter_cons_of_pos hp]
      rfl
    · rw [List.find?_cons_of_neg _ hp] at h
      rw [List.filter_cons_of_neg hp]
      exact ih v h

/-- When `find?` fails, the filtered list is empty. -/
theorem filter_nil_of_find?_none {α : Type} (p : α → Bool) (l : List α)
    (h : l.find? p = none) : l.filter p = [] :=
  List.filter_eq_nil_iff.mpr (fun a ha => by simpa using List.find?_eq_none.mp h a ha)

/-- Everything `selectForGroup` retains comes from the group. -/
theorem selectForGroup_subset (g : List Variant) :
    ∀ v ∈ selectForGroup g, v ∈ g := by
  intro v hv
  simp only [selectForGroup] at hv
  split at hv
  · exact hv
  · split at hv
    · exact List.filter_subset' _ (List.take_subset 1 _ hv)
    · split at hv
      · exact List.filter_subset' _ (List.take_subset 1 _ hv)
      · exact List.filter_subset' _ (List.take_subset 1 _ hv)

/-- `selectForGroup` retains at most one candidate. -/
theorem selectForGroup_length (g : List Variant) :
    (selectForGroup g).length ≤ 1 := by
  simp only [selectForGroup]
  split
  · omega
  · split
    · exact List.length_take_le _ _
    · split
      · exact List.length_take_le _ _
      · exact List.length_take_le _ _

/-- C5: in the packaging filter, a candidate whose URL carries a
second-or-later variant index suffix is classified APK (monolithic), one
whose URL ends in the bare non-numbered suffix is classified Bundle, and in
every multi-candidate group the retained candidate is the first candidate of
the best available class under APK > Bundle > other; in particular, of two
`arm64-v8a` candidates with URLs ending `-2-android-apk-download` (listed
second) and `-android-apk-download` (listed first), the `-2-` one is
retained. -/
theorem C5_packaging_preference :
    (∀ v : Variant, hasNumberedVariantSuffix (strToLower v.url) = true →
        variantClass v = PackClass.apk)
    ∧ (∀ v : Variant, endsWithBareSuffix (strToLower v.url) = true →
        hasNumberedVariantSuffix (strToLower v.url) = false →
        variantClass v = PackClass.bundle)
    ∧ (∀ (g : List Variant) (v : Variant), 2 ≤ g.length →
        g.find? (fun v => decide (variantClass v = PackClass.apk)) = some v →
        selectForGroup g = [v])
    ∧ (∀ (g : List Variant) (v : Variant), 2 ≤ g.length →
        g.find? (fun v => decide (variantClass v = PackClass.apk)) = none →
        g.find? (fun v => decide (variantClass v = PackClass.bundle)) = some v →
        selectForGroup g = [v])
    ∧ (∀ (g : List Variant) (v : Variant), 2 ≤ g.length →
        g.find? (fun v => decide (variantClass v = PackClass.apk)) = none →
        g.find? (fun v => decide (variantClass v = PackClass.bundle)) = none →
        g.find? (fun v => decide (variantClass v = PackClass.other)) = some v →
        selectForGroup g = [v])
    ∧ filterPreferApkDownloads [vBareSuffix, vNumSuffix] = [vNumSuffix] := by
  refine ⟨?_, ?_, ?_, ?_, ?_, by decide⟩
  · intro v h
    unfold variantClass
    rw [if_pos h]
  · intro v h1 h2
    unfold variantClass
    rw [if_neg (by simp [h2]), if_pos (by simp [h1, h2])]
  · intro g v hlen hfind
    have hone : ¬ g.length = 1 := by omega
    have hp := List.find?_some hfind
    have hmem : v ∈ g.filter (fun v => decide (variantClass v = PackClass.apk)) :=
      List.mem_filter.mpr ⟨List.mem_of_find?_eq_some hfind, hp⟩
    have hemp : (g.filter (fun v => decide (variantClass v = PackClass.apk))).isEmpty
        = false := by
      rw [Bool.eq_false_iff]
      intro he
      rw [List.isEmpty_iff] at he
      rw [he] at hmem
      simp at hmem
    simp only [selectForGroup]
    rw [if_neg hone, if_pos (by simp [hemp])]
    exact take_one_filter_of_find? _ g v hfind
  · intro g v hlen ha hfind
    have hone : ¬ g.length = 1 := by omega
    have hempA : g.filter (fun v => decide (variantClass v = PackClass.apk)) = [] :=
      filter_nil_of_find?_none _ g ha
    have hp := List.find?_some hfind
    have hmem : v ∈ g.filter (fun v => decide (variantClass v = PackClass.bundle)) :=
      List.mem_filter.mpr ⟨List.mem_of_find?_eq_some hfind, hp⟩
    have hemp : (g.filter (fun v => decide (variantClass v = PackClass.bundle))).isEmpty
        = false := by
      rw [Bool.eq_false_iff]
      intro he
      rw [List.isEmpty_iff] at he
      rw [he] at hmem
      simp at hmem
    simp only [selectForGroup]
    rw [if_neg hone, if_neg (by simp [hempA]), if_pos (by simp [hemp])]
    exact take_one_filter_of_find? _ g v hfind
  · intro g v hlen ha hb hfind
    have hone : ¬ g.length = 1 := by omega
    have hempA : g.filter (fun v => decide (variantClass v = PackClass.apk)) = [] :=
      filter_nil_of_find?_none _ g ha
    have hempB : g.filter (fun v => decide (variantClass v = PackClass.bundle)) = [] :=
      filter_nil_of_find?_none _ g hb
    simp only [selectForGroup]
    rw [if_neg hone, if_neg (by simp [hempA]), if_neg (by simp [hempB])]
    exact take_one_filter_of_find? _ g v hfind

/-- C5, witness: the scenario group, with the bundle-classified candidate
first: `find?` locates the `-2-` candidate and it alone is retained. -/
theorem C5_witness :
    selectForGroup [vBareSuffix, vNumSuffix] = [vNumSuffix] :=
  C5_packaging_preference.2.2.1 [vBareSuffix, vNumSuffix] vNumSuffix
    (by decide) (by decide)

/-- The keys of the architecture groups after inserting one candidate:
unchanged when its architecture already has a group, else extended by it. -/
theorem addToGroups_keys (gs : List (String × List Variant)) (v : Variant) :
    (addToGroups gs v).map Prod.fst =
      if gs.any (fun g => g.1 = v.architecture) then gs.map Prod.fst
      else gs.map Prod.fst ++ [v.architecture] := by
  unfold addToGroups
  split
  · rw [List.map_map]
    apply List.map_congr_left
    intro g _
    by_cases h : g.1 = v.architecture <;> simp [h]
  · simp

/-- The groups invariant maintained by `archGroups`: distinct keys, and
every member of a group carries the group's architecture key. -/
theorem addToGroups_inv (gs : List (String × List Variant)) (v : Variant)
    (h1 : (gs.map Prod.fst).Nodup)
    (h2 : ∀ g ∈ gs, ∀ w ∈ g.2, w.architecture = g.1) :
    ((addToGroups gs v).map Prod.fst).Nodup
    ∧ ∀ g ∈ addToGroups gs v, ∀ w ∈ g.2, w.architecture = g.1 := by
  constructor
  · rw [addToGroups_keys]
    split
    · exact h1
    · rename_i hany
      rw [List.nodup_append]
      refine ⟨h1, List.nodup_singleton _, ?_⟩
      intro a ha hb
      simp only [List.mem_singleton] at hb
      subst hb
      obtain ⟨g, hg, hga⟩ := List.mem_map.mp ha
      have := List.any_eq_false.mp (Bool.eq_false_iff.mpr hany) g hg
      simp [hga] at this
  · unfold addToGroups
    split
    · intro g hg w hw
      obtain ⟨g0, hg0, rfl⟩ := List.mem_map.mp hg
      by_cases hk : g0.1 = v.architecture
      · rw [if_pos hk] at hw ⊢
        simp only at hw ⊢
        rcases List.mem_append.mp hw with h | h
        · exact h2 g0 hg0 w h
        · simp only [List.mem_singleton] at h
          subst h
          exact hk.symm
      · rw [if_neg hk] at hw ⊢
        exact h2 g0 hg0 w hw
    · intro g hg w hw
      rcases List.mem_append.mp hg with h | h
      · exact h2 g h w hw
      · simp only [List.mem_singleton] at h
        subst h
        simp only [List.mem_singleton] at hw
        subst hw
        rfl

/-- The invariant holds for the groups built from any candidate list. -/
theorem archGroups_inv (vs : List Variant) :
    ((archGroups vs).map Prod.fst).Nodup
    ∧ ∀ g ∈ archGroups vs, ∀ w ∈ g.2, w.architecture = g.1 := by
  suffices h : ∀ gs, (gs.map Prod.fst).Nodup →
      (∀ g ∈ gs, ∀ w ∈ g.2, w.architecture = g.1) →
      ((vs.foldl addToGroups gs).map Prod.fst).Nodup
      ∧ ∀ g ∈ vs.foldl addToGroups gs, ∀ w ∈ g.2, w.architecture = g.1 by
    exact h [] (by simp) (by simp)
  induction vs with
  | nil => intro gs ha hb; exact ⟨ha, hb⟩
  | cons v vs ih =>
    intro gs ha hb
    rw [List.foldl_cons]
    obtain ⟨ha', hb'⟩ := addToGroups_inv gs v ha hb
    exact ih (addToGroups gs v) ha' hb'

/-- Candidates selected across the groups draw their architectures from the
group keys. -/
theorem selectAll_arch_mem (gs : List (String × List Variant))
    (hinv : ∀ g ∈ gs, ∀ w ∈ g.2, w.architecture = g.1) :
    ∀ v ∈ selectAll gs, v.architecture ∈ gs.map Prod.fst := by
  induction gs with
  | nil => intro v hv; simp [selectAll] at hv
  | cons g gs ih =>
    intro v hv
    rw [selectAll] at hv
    rcases List.mem_append.mp hv with h | h
    · have := hinv g (by simp) v (selectForGroup_subset _ v h)
      simp [this]
    · have := ih (fun g' hg' => hinv g' (by simp [hg'])) v h
      simp [this]

/-- Lists of at most one element are vacuously pairwise-related. -/
theorem pairwise_of_length_le_one {α : Type} {R : α → α → Prop} :
    ∀ (l : List α), l.length ≤ 1 → l.Pairwise R
  | [], _ => List.Pairwise.nil
  | [a], _ => by simp
  | a :: b :: t, h => by simp at h

/-- Group-wise selection over groups with distinct keys yields pairwise
distinct architectures. -/
theorem selectAll_pairwise (gs : List (String × List Variant))
    (hnd : (gs.map Prod.fst).Nodup)
    (hinv : ∀ g ∈ gs, ∀ w ∈ g.2, w.architecture = g.1) :
    (selectAll gs).Pairwise (fun a b => a.architecture ≠ b.architecture) := by
  induction gs with
  | nil => simp [selectAll]
  | cons g gs ih =>
    rw [selectAll, List.pairwise_append]
    simp only [List.map_cons, List.nodup_cons] at hnd
    refine ⟨pairwise_of_length_le_one _ (selectForGroup_length g.2),
      ih hnd.2 (fun g' hg' => hinv g' (by simp [hg'])), ?_⟩
    intro a ha b hb
    have ha' : a.architecture = g.1 :=
      hinv g (by simp) a (selectForGroup_subset _ a ha)
    have hb' : b.architecture ∈ gs.map Prod.fst :=
      selectAll_arch_mem gs (fun g' hg' => hinv g' (by simp [hg'])) b hb
    rw [ha']
    intro heq
    rw [← heq] at hb'
    exact hnd.1 hb'

/-- C6: the packaging-preference filter returns at most one candidate per
architecture tag — no two elements of its output share an architecture. -/
theorem C6_one_candidate_per_architecture (vs : List Variant) :
    (filterPreferApkDownloads vs).Pairwise
      (fun a b => a.architecture ≠ b.architecture) := by
  unfold filterPreferApkDownloads
  split
  · rename_i h
    rw [List.isEmpty_iff.mp h]
    exact List.Pairwise.nil
  · obtain ⟨hnd, hinv⟩ := archGroups_inv vs
    exact selectAll_pairwise _ hnd hinv

/-! ## C2: found and missing architectures partition the requested set -/

/-- One variant step adds at most that variant's architecture to the found
set. -/
theorem processVariant_found (env : OrchEnv) (version : String)
    (st : OrchState) (v : Variant) (a : String)
    (h : a ∈ (processVariant env version st v).foundVariants) :
    a ∈ st.foundVariants ∨ a = v.architecture := by
  unfold processVariant at h
  split at h
  · exact Or.inl h
  · split at h
    · rcases List.mem_append.mp h with h | h
      · exact Or.inl h
      · simp only [List.mem_singleton] at h
        exact Or.inr h
    · split at h
      · exact Or.inl h
      · split at h
        · rcases List.mem_append.mp h with h | h
          · exact Or.inl h
          · simp only [List.mem_singleton] at h
            exact Or.inr h
        · exact Or.inl h

/-- One page adds only architectures of its variants. -/
theorem processPage_found (env : OrchEnv) (version : String) :
    ∀ (variants : List Variant) (st : OrchState) (a : String),
      a ∈ (processPage env version st variants).foundVariants →
      a ∈ st.foundVariants ∨ ∃ v ∈ variants, a = v.architecture := by
  intro variants
  induction variants with
  | nil => intro st a h; exact Or.inl h
  | cons v vs ih =>
    intro st a h
    rw [processPage, List.foldl_cons] at h
    rcases ih (processVariant env version st v) a h with h | h
    · rcases processVariant_found env version st v a h with h | h
      · exact Or.inl h
      · exact Or.inr ⟨v, by simp, h⟩
    · obtain ⟨w, hw, ha⟩ := h
      exact Or.inr ⟨w, by simp [hw], ha⟩

/-- The loop adds only architectures carried by some processed page's
variants. -/
theorem downloadLoop_found (env : OrchEnv) (architectures : List String)
    (downloadMultiple : Bool) (recommended : Option String) :
    ∀ (pages : List (String × List Variant)) (st : OrchState) (a : String),
      a ∈ (downloadLoop env architectures downloadMultiple recommended
            pages st).foundVariants →
      a ∈ st.foundVariants ∨ ∃ p ∈ pages, ∃ v ∈ p.2, a = v.architecture := by
  intro pages
  induction pages with
  | nil => intro st a h; exact Or.inl h
  | cons page rest ih =>
    obtain ⟨version, variants⟩ := page
    intro st a h
    rw [downloadLoop] at h
    have step : a ∈ (processPage env version st variants).foundVariants →
        a ∈ st.foundVariants
          ∨ ∃ p ∈ (version, variants) :: rest, ∃ v ∈ p.2, a = v.architecture := by
      intro hm
      rcases processPage_found env version variants st a hm with h' | h'
      · exact Or.inl h'
      · obtain ⟨v, hv, ha⟩ := h'
        exact Or.inr ⟨(version, variants), by simp, v, hv, ha⟩
    split at h
    · exact step h
    · split at h
      · exact step h
      · rcases ih (processPage env version st variants) a h with h' | h'
        · exact step h'
        · obtain ⟨p, hp, v, hv, ha⟩ := h'
          exact Or.inr ⟨p, by simp [hp], v, hv, ha⟩

/-- C2: for every run of `download_app_apks`, the found-architecture set
and the reported missing-architecture set are disjoint and together equal
the requested set, provided every discovered variant carries a requested
architecture tag (which `_get_variants_from_version_page` guarantees: its
Method-1 tags are drawn from the requested list, and its Method-2 tags come
from `detectArchMethod2`, cf. `C4_universal_only_default`). -/
theorem C2_found_missing_partition (env : OrchEnv) (architectures : List String)
    (downloadMultiple : Bool) (recommended : Option String)
    (pages : List (String × List Variant))
    (hvar : ∀ p ∈ pages, ∀ v ∈ p.2, v.architecture ∈ architectures) :
    (download_app_apks env architectures downloadMultiple recommended
          pages).foundVariants.toFinset
        ∪ missingArchitectures architectures
            (download_app_apks env architectures downloadMultiple recommended
              pages).foundVariants
      = architectures.toFinset
    ∧ (download_app_apks env architectures downloadMultiple recommended
          pages).foundVariants.toFinset
        ∩ missingArchitectures architectures
            (download_app_apks env architectures downloadMultiple recommended
              pages).foundVariants
      = ∅ := by
  have hsub : (download_app_apks env architectures downloadMultiple recommended
      pages).foundVariants.toFinset ⊆ architectures.toFinset := by
    intro a ha
    rw [List.mem_toFinset] at ha
    rcases downloadLoop_found env architectures downloadMultiple recommended
        pages ⟨[], 0⟩ a ha with h | h
    · simp at h
    · obtain ⟨p, hp, v, hv, rfl⟩ := h
      exact List.mem_toFinset.mpr (hvar p hp v hv)
  unfold missingArchitectures
  exact ⟨Finset.union_sdiff_of_subset hsub, Finset.inter_sdiff_self _ _⟩

/-- C2, witness: a concrete run — all architectures requested are tagged on
the variants, one page, downloads succeed via existing files. -/
theorem C2_witness :
    (download_app_apks envAllExist ["arm64-v8a", "universal"] true none
          [("1.0", [⟨"u", "t", "arm64-v8a", "c"⟩])]).foundVariants.toFinset
        ∪ missingArchitectures ["arm64-v8a", "universal"]
            (download_app_apks envAllExist ["arm64-v8a", "universal"] true none
              [("1.0", [⟨"u", "t", "arm64-v8a", "c"⟩])]).foundVariants
      = (["arm64-v8a", "universal"] : List String).toFinset
    ∧ (download_app_apks envAllExist ["arm64-v8a", "universal"] true none
          [("1.0", [⟨"u", "t", "arm64-v8a", "c"⟩])]).foundVariants.toFinset
        ∩ missingArchitectures ["arm64-v8a", "universal"]
            (download_app_apks envAllExist ["arm64-v8a", "universal"] true none
              [("1.0", [⟨"u", "t", "arm64-v8a", "c"⟩])]).foundVariants
      = ∅ :=
  C2_found_missing_partition envAllExist ["arm64-v8a", "universal"] true none
    [("1.0", [⟨"u", "t", "arm64-v8a", "c"⟩])] (by decide)

/-! ## C8: VersionExtractor returns only well-formed version strings

The well-formedness invariant: every handler (and the fallback) yields a
nonempty list of nonempty all-digit segments, so the dot-joined output has
only numeric dot-separated segments.
-/

/-- A `takeWhile` run satisfies its predicate everywhere. -/
theorem all_takeWhile (p : Char → Bool) (l : List Char) :
    (l.takeWhile p).all p = true := by
  induction l with
  | nil => rfl
  | cons a l ih =>
    by_cases h : p a
    · simp [List.takeWhile_cons, h, ih]
    · simp [List.takeWhile_cons, h]

/-- `pDigits` returns a nonempty all-digit run. -/
theorem pDigits_good (s : List Char) (pr : List Char × List Char)
    (h : pDigits s = some pr) : pr.1 ≠ [] ∧ pr.1.all Char.isDigit = true := by
  simp only [pDigits] at h
  split at h
  · exact absurd h (by simp)
  · rename_i hne
    cases h
    refine ⟨?_, all_takeWhile _ _⟩
    intro hnil
    rw [List.isEmpty_iff] at hne
    exact hne hnil

/-- Every block produced by `sepDigitBlocksF` is a nonempty all-digit run. -/
theorem sepDigitBlocksF_good (sep : Char) :
    ∀ (fuel : Nat) (s : List Char), ∀ b ∈ (sepDigitBlocksF sep fuel s).1,
      b ≠ [] ∧ b.all Char.isDigit = true := by
  intro fuel
  induction fuel with
  | zero =>
    intro s b hb
    cases s <;> simp [sepDigitBlocksF] at hb
  | succ n ih =>
    intro s b hb
    match s with
    | [] => simp [sepDigitBlocksF] at hb
    | c :: rest =>
      simp only [sepDigitBlocksF] at hb
      split at hb
      · match rest with
        | [] => simp at hb
        | d :: rest2 =>
          simp only at hb
          split at hb
          · rename_i hdig
            simp only [List.mem_cons] at hb
            rcases hb with rfl | hb
            · refine ⟨by simp, ?_⟩
              simp [hdig, all_takeWhile]
            · exact ih _ b hb
          · simp at hb
      · simp at hb

/-- Every block produced by `sepDigitBlocks` is a nonempty all-digit run. -/
theorem sepDigitBlocks_good (sep : Char) (s : List Char) :
    ∀ b ∈ (sepDigitBlocks sep s).1, b ≠ [] ∧ b.all Char.isDigit = true :=
  sepDigitBlocksF_good sep s.length s

/-- The shared photos tail parser yields three good segments. -/
theorem photosTail_good (s : List Char) (segs : List (List Char))
    (h : photosTail s = some segs) :
    segs ≠ [] ∧ ∀ b ∈ segs, b ≠ [] ∧ b.all Char.isDigit = true := by
  simp only [photosTail, Bind.bind, Option.bind_eq_some, Option.pure_def,
    Option.some.injEq] at h
  obtain ⟨q1, hq1, s1, _, q2, hq2, s2, _, q3, hq3, s3, _, q4, _, s4, _, hsegs⟩ := h
  subst hsegs
  refine ⟨by simp, ?_⟩
  intro b hb
  simp only [List.mem_cons, List.not_mem_nil, or_false] at hb
  rcases hb with rfl | rfl | rfl
  · exact pDigits_good _ _ hq1
  · exact pDigits_good _ _ hq2
  · exact pDigits_good _ _ hq3

/-- Pattern `google-photos-...-release` yields good segments. -/
theorem p0aAt_good (s : List Char) (segs : List (List Char))
    (h : p0aAt s = some segs) :
    segs ≠ [] ∧ ∀ b ∈ segs, b ≠ [] ∧ b.all Char.isDigit = true := by
  simp only [p0aAt, Bind.bind, Option.bind_eq_some] at h
  obtain ⟨s1, _, h2⟩ := h
  exact photosTail_good s1 segs h2

/-- Pattern `photos-...-release` yields good segments. -/
theorem p0bAt_good (s : List Char) (segs : List (List Char))
    (h : p0bAt s = some segs) :
    segs ≠ [] ∧ ∀ b ∈ segs, b ≠ [] ∧ b.all Char.isDigit = true := by
  simp only [p0bAt, Bind.bind, Option.bind_eq_some] at h
  obtain ⟨s1, _, h2⟩ := h
  exact photosTail_good s1 segs h2

/-- Pattern 2 yields good segments. -/
theorem p2At_good (s : List Char) (segs : List (List Char))
    (h : p2At s = some segs) :
    segs ≠ [] ∧ ∀ b ∈ segs, b ≠ [] ∧ b.all Char.isDigit = true := by
  simp only [p2At, Bind.bind, Option.bind_eq_some] at h
  obtain ⟨s1, _, q, hq, h2⟩ := h
  split at h2
  · exact absurd h2 (by simp)
  · simp only [Option.bind_eq_some, Option.pure_def, Option.some.injEq] at h2
    obtain ⟨s2, _, hsegs⟩ := h2
    subst hsegs
    refine ⟨by simp, ?_⟩
    intro b hb
    simp only [List.mem_cons] at hb
    rcases hb with rfl | hb
    · exact pDigits_good _ _ hq
    · exact sepDigitBlocks_good '-' q.2 b hb

/-- The pattern-3 version body yields good segments. -/
theorem p3Version_good (s : List Char) (segs : List (List Char))
    (h : p3Version s = some segs) :
    segs ≠ [] ∧ ∀ b ∈ segs, b ≠ [] ∧ b.all Char.isDigit = true := by
  simp only [p3Version, Bind.bind, Option.bind_eq_some] at h
  obtain ⟨q, hq, h2⟩ := h
  split at h2
  · exact absurd h2 (by simp)
  · simp only [Option.pure_def, Option.some.injEq] at h2
    subst h2
    refine ⟨by simp, ?_⟩
    intro b hb
    simp only [List.mem_cons] at hb
    rcases hb with rfl | hb
    · exact pDigits_good _ _ hq
    · exact sepDigitBlocks_good '.' q.2 b hb

/-- The descending pattern-3 split search yields good segments. -/
theorem p3Desc_good (run : List Char) :
    ∀ (j : Nat) (segs : List (List Char)), p3Desc run j = some segs →
      segs ≠ [] ∧ ∀ b ∈ segs, b ≠ [] ∧ b.all Char.isDigit = true := by
  intro j
  induction j with
  | zero => intro segs h; simp [p3Desc] at h
  | succ n ih =>
    intro segs h
    rw [p3Desc] at h
    split at h
    · rename_i r heq
      cases h
      simp only [p3Split] at heq
      split at heq
      · exact p3Version_good _ _ heq
      · exact absurd heq (by simp)
    · exact ih segs h

/-- Pattern 3 yields good segments. -/
theorem p3At_good (s : List Char) (segs : List (List Char))
    (h : p3At s = some segs) :
    segs ≠ [] ∧ ∀ b ∈ segs, b ≠ [] ∧ b.all Char.isDigit = true := by
  match s with
  | [] => simp [p3At] at h
  | c :: rest =>
    rw [p3At.eq_def] at h
    split at h
    · exact p3Desc_good _ _ _ h
    · exact absurd h (by simp)

/-- Pattern 4 yields good segments. -/
theorem p4At_good (s : List Char) (segs : List (List Char))
    (h : p4At s = some segs) :
    segs ≠ [] ∧ ∀ b ∈ segs, b ≠ [] ∧ b.all Char.isDigit = true := by
  simp only [p4At, Bind.bind, Option.bind_eq_some, Option.pure_def, Option.some.injEq] at h
  obtain ⟨q1, hq1, s1, _, q2, hq2, s2, _, q3, hq3, hsegs⟩ := h
  subst hsegs
  refine ⟨by simp, ?_⟩
  intro b hb
  simp only [List.mem_cons] at hb
  rcases hb with rfl | rfl | rfl | hb
  · exact pDigits_good _ _ hq1
  · exact pDigits_good _ _ hq2
  · exact pDigits_good _ _ hq3
  · exact sepDigitBlocks_good '.' q3.2 b hb

/-- Pattern 5 yields good segments. -/
theorem p5At_good (s : List Char) (segs : List (List Char))
    (h : p5At s = some segs) :
    segs ≠ [] ∧ ∀ b ∈ segs, b ≠ [] ∧ b.all Char.isDigit = true := by
  simp only [p5At, Bind.bind, Option.bind_eq_some] at h
  obtain ⟨s1, _, q1, hq1, s2, _, q2, hq2, s3, _, q3, hq3, h2⟩ := h
  have base : ∀ b ∈ [q1.1, q2.1, q3.1], b ≠ [] ∧ b.all Char.isDigit = true := by
    intro b hb
    simp only [List.mem_cons, List.not_mem_nil, or_false] at hb
    rcases hb with rfl | rfl | rfl
    · exact pDigits_good _ _ hq1
    · exact pDigits_good _ _ hq2
    · exact pDigits_good _ _ hq3
  split at h2
  · split at h2
    · rename_i q4 hq4
      split at h2
      · simp only [Option.pure_def, Option.some.injEq] at h2
        subst h2
        refine ⟨by simp, ?_⟩
        intro b hb
        simp only [List.mem_cons, List.not_mem_nil, or_false] at hb
        rcases hb with rfl | rfl | rfl | rfl
        · exact pDigits_good _ _ hq1
        · exact pDigits_good _ _ hq2
        · exact pDigits_good _ _ hq3
        · exact pDigits_good _ _ hq4
      · simp only [Option.pure_def, Option.some.injEq] at h2
        subst h2
        exact ⟨by simp, base⟩
    · simp only [Option.pure_def, Option.some.injEq] at h2
      subst h2
      exact ⟨by simp, base⟩
  · exact absurd h2 (by simp)

/-- `re.search` preserves any property of the anchored matcher's output. -/
theorem scanFirst_good {α : Type} (f : List Char → Option α) (P : α → Prop)
    (hf : ∀ s r, f s = some r → P r) :
    ∀ (s : List Char) (r : α), scanFirst f s = some r → P r := by
  intro s
  induction s with
  | nil =>
    intro r h
    rw [scanFirst] at h
    exact hf [] r h
  | cons c rest ih =>
    intro r h
    rw [scanFirst] at h
    split at h
    · rename_i r' heq
      cases h
      exact hf _ _ heq
    · exact ih r h

/-- `Option.orElse` preserves a property both alternatives have. -/
theorem orElse_good {α : Type} (P : α → Prop) (x : Option α) (y : Unit → Option α)
    (hx : ∀ r, x = some r → P r) (hy : ∀ r, y () = some r → P r) :
    ∀ r, x.orElse y = some r → P r := by
  intro r h
  cases x with
  | some a =>
    simp only [Option.orElse, Option.some.injEq] at h
    exact h ▸ hx a rfl
  | none =>
    simp only [Option.orElse] at h
    exact hy r h

/-- `Option.getD` preserves a property the content and the default share. -/
theorem getD_good {α : Type} (P : α → Prop) (x : Option α) (d : α)
    (hx : ∀ r, x = some r → P r) (hd : P d) : P (x.getD d) := by
  cases x with
  | some a => simpa using hx a rfl
  | none => simpa using hd

/-- The segments `_extract_version_from_url` produces are always a nonempty
list of nonempty all-digit runs — for every input, pattern and fallback
alike. -/
theorem extractVersionSegments_good (url : List Char) :
    extractVersionSegments url ≠ []
    ∧ ∀ b ∈ extractVersionSegments url, b ≠ [] ∧ b.all Char.isDigit = true := by
  have hphotos : ∀ r,
      (if hasSubL "google-photos".data url || hasSubL "/photos/".data url then
        (scanFirst p0aAt url).orElse (fun _ => scanFirst p0bAt url)
      else none) = some r →
      r ≠ [] ∧ ∀ b ∈ r, b ≠ [] ∧ b.all Char.isDigit = true := by
    intro r h
    split at h
    · exact orElse_good _ _ _ (scanFirst_good p0aAt _ p0aAt_good url)
        (fun r' h' => scanFirst_good p0bAt _ p0bAt_good url r' h') r h
    · exact absurd h (by simp)
  simp only [extractVersionSegments]
  exact getD_good _ _ _
    (orElse_good _ _ _
      (orElse_good _ _ _
        (orElse_good _ _ _
          (orElse_good _ _ _ hphotos
            (fun r h => scanFirst_good p2At _ p2At_good url r h))
          (fun r h => scanFirst_good p3At _ p3At_good url r h))
        (fun r h => scanFirst_good p4At _ p4At_good url r h))
      (fun r h => scanFirst_good p5At _ p5At_good url r h))
    ⟨by simp, by decide⟩

/-- Splitting a dot-free run at dots yields the run itself. -/
theorem splitDots_no_dot (a : List Char) (h : '.' ∉ a) : splitDots a = [a] := by
  induction a with
  | nil => rfl
  | cons c rest ih =>
    have hc : ¬ c = '.' := fun hc => h (by simp [hc])
    have hrest : '.' ∉ rest := fun hr => h (by simp [hr])
    rw [splitDots, if_neg hc, ih hrest]

/-- Splitting past a dot-free head segment peels it off. -/
theorem splitDots_append (a t : List Char) (h : '.' ∉ a) :
    splitDots (a ++ '.' :: t) = a :: splitDots t := by
  induction a with
  | nil => simp [splitDots]
  | cons c rest ih =>
    have hc : ¬ c = '.' := fun hc => h (by simp [hc])
    have hrest : '.' ∉ rest := fun hr => h (by simp [hr])
    rw [List.cons_append, splitDots, if_neg hc, ih hrest]

/-- Splitting the dot-join of nonempty dot-free segments recovers them. -/
theorem splitDots_joinDots (segs : List (List Char)) (hne : segs ≠ [])
    (hnd : ∀ b ∈ segs, '.' ∉ b) : splitDots (joinDots segs) = segs := by
  induction segs with
  | nil => exact absurd rfl hne
  | cons a rest ih =>
    cases rest with
    | nil => exact splitDots_no_dot a (hnd a (by simp))
    | cons b rest2 =>
      rw [joinDots, splitDots_append a _ (hnd a (by simp)),
        ih (List.cons_ne_nil _ _) (fun x hx => hnd x (by simp [hx]))]
      exact List.cons_ne_nil _ _

/-- C8: for every href string, the version extractor returns a string each
of whose dot-separated segments is a nonempty digit run (hence parses as a
non-negative integer) — the fallback `"0.0.0"` included, never a malformed
partial string; in particular the YouTube release href yields `"20.14.43"`
and the Google-Photos release href (build number stripped) yields
`"7.50.0"`. -/
theorem C8_version_extractor :
    (∀ (url : String), ∀ seg ∈ splitDots (extract_version_from_url url).data,
        seg ≠ [] ∧ seg.all Char.isDigit = true)
    ∧ extract_version_from_url "/apk/google-inc/youtube/youtube-20-14-43-release/"
        = "20.14.43"
    ∧ extract_version_from_url
        "/apk/google-inc/photos/google-photos-7-50-0-818774663-release/"
        = "7.50.0" := by
  refine ⟨?_, by decide, by decide⟩
  intro url seg hseg
  obtain ⟨hne, hgood⟩ := extractVersionSegments_good url.data
  have hnd : ∀ b ∈ extractVersionSegments url.data, '.' ∉ b := by
    intro b hb hdot
    have hall := (hgood b hb).2
    rw [List.all_eq_true] at hall
    have := hall '.' hdot
    exact absurd this (by decide)
  have hdata : (extract_version_from_url url).data
      = joinDots (extractVersionSegments url.data) := rfl
  rw [hdata, splitDots_joinDots _ hne hnd] at hseg
  exact hgood seg hseg

/-- C8, witness: an href matching no pattern falls back to `"0.0.0"`, whose
first dot-separated segment is the nonempty digit run `['0']`. -/
theorem C8_witness : (['0'] : List Char) ≠ [] ∧ (['0'] : List Char).all Char.isDigit = true :=
  C8_version_extractor.1 "no-version-here" ['0'] (by decide)

end Downloader
